import Mathlib

/-!
Verification of the md2ppt core: the token segmenter (`src/json2slide.py`)
and the geometry resolver (`src/json2pptx.py`, `src/utils/expand.py`).

The Python sources are shallowly embedded: mistune-style token dictionaries
become a nested inductive `Tok`, the segmenter's mutable cursor state becomes
an explicit `SegState` threaded through the operations, and Python expressions
that can raise (`d['k']`, `l[i]`) become `Option`-valued computations where
`none` models the raised exception.  Geometry uses exact rationals in place of
Python floats.
-/

namespace Md2ppt

/-! ## Run builder data model (json2slide.py, `paragraph`) -/

/-- Style accumulator of `paragraph.process_token` in `src/json2slide.py`:
the Python dict starts empty and only ever gains the keys `bold`, `italic`,
`monospace` (always set to `True`) and `hyperlink`.  Key absence is modelled
by `false` / `none`. -/
structure RStyle where
  bold : Bool := false
  italic : Bool := false
  monospace : Bool := false
  hyperlink : Option String := none
deriving DecidableEq, Repr

/-- A flat styled text span: the dict `{**new_style, 'text': token['raw']}`
appended to `runs` in `paragraph.process_token`. -/
structure Run where
  bold : Bool := false
  italic : Bool := false
  monospace : Bool := false
  hyperlink : Option String := none
  text : String
deriving DecidableEq, Repr

/-- The `attrs` mapping of a mistune token.  Each key the segmenter reads is a
field; `none` models an absent key. -/
structure Attrs where
  level : Option Nat := none
  ordered : Option Bool := none
  url : Option String := none
  info : Option String := none
  align : Option String := none
deriving DecidableEq, Repr

/-- A mistune token dictionary as consumed by `process_json`: a `type` string,
an optional `raw` literal, an `attrs` mapping, a `children` list (absent keys
are merged with the empty list: every site either iterates the list or crashes
on both absence and emptiness), and the `key`/`value` entries of the
`comment_block` plugin. -/
inductive Tok where
  | mk (ty : String) (raw : Option String) (attrs : Attrs) (children : List Tok)
       (key : Option String) (value : Option String)

/-- The `type` field of a token. -/
def Tok.ty : Tok → String
  | .mk t _ _ _ _ _ => t

/-- The `raw` field of a token (`none` = key absent). -/
def Tok.raw : Tok → Option String
  | .mk _ r _ _ _ _ => r

/-- The `attrs` mapping of a token. -/
def Tok.attrs : Tok → Attrs
  | .mk _ _ a _ _ _ => a

/-- The `children` list of a token. -/
def Tok.children : Tok → List Tok
  | .mk _ _ _ c _ _ => c

/-- The `key` field of a `comment_block` token. -/
def Tok.key : Tok → Option String
  | .mk _ _ _ _ k _ => k

/-- The `value` field of a `comment_block` token. -/
def Tok.value : Tok → Option String
  | .mk _ _ _ _ _ v => v

/-- Emit one run carrying the accumulated style, as
`runs.append({**new_style, 'text': token['raw']})`. -/
def RStyle.toRun (st : RStyle) (text : String) : Run :=
  ⟨st.bold, st.italic, st.monospace, st.hyperlink, text⟩

mutual

/-- `paragraph.process_token` in `src/json2slide.py`: updates the inherited
style according to the token type, emits a run when the token has a `raw`
field, and recurses into `children` with the updated style. -/
def processTokenRuns (t : Tok) (st : RStyle) : List Run :=
  match t with
  | .mk ty raw attrs children _ _ =>
    let st1 :=
      if ty = "strong" then { st with bold := true }
      else if ty = "emphasis" then { st with italic := true }
      else if ty = "codespan" then { st with monospace := true }
      else if ty = "link" then
        match attrs.url with
        | some u => { st with hyperlink := some u }
        | none => st
      else st
    (match raw with
     | some s => [st1.toRun s]
     | none => []) ++ processChildrenRuns children st1

/-- The `for child in token['children']` loop of `paragraph.process_token`. -/
def processChildrenRuns (l : List Tok) (st : RStyle) : List Run :=
  match l with
  | [] => []
  | c :: cs => processTokenRuns c st ++ processChildrenRuns cs st

end

/-- `paragraph(children)` in `src/json2slide.py`: builds the flat run list of a
token's inline children, starting each top-level child from the empty style. -/
def paragraphRuns (children : List Tok) : List Run :=
  processChildrenRuns children {}

/-! ## Content-token data model (the dicts appended to placeholders) -/

/-- The `consume` tag attached by `add_token`. -/
inductive Consume where
  | shared
  | monopoly
deriving DecidableEq, Repr

/-- One flattened list entry
`{"type": "list_item", "depth": .., "runs": .., "ordered": ..}`
produced by `process_list.iter_token`. -/
structure ListItemRec where
  depth : Nat
  runs : List Run
  ordered : Bool
deriving DecidableEq, Repr

/-- A table cell `{'type': 'cell', 'runs': .., 'align': ..}` produced by
`process_table.process_cell`. -/
structure Cell where
  runs : List Run
  align : String
deriving DecidableEq, Repr

/-- The payload of a content token handed to `add_token` (without the
`consume` tag it is merged with). -/
inductive CVal where
  | paragraph (runs : List Run)
  | heading (level : Nat) (runs : List Run)
  | blockQuote (runs : List Run)
  | code (lang : String) (raw : String)
  | image (url : String) (alt : Option String)
  | list (items : List ListItemRec)
  | table (head : List Cell) (body : List (List Cell))
deriving DecidableEq, Repr

/-- A content token as stored in a placeholder:
`{**token, "consume": consume}`. -/
structure CTok where
  val : CVal
  consume : Consume
deriving DecidableEq, Repr

/-- A slide dict.  `title = none` models the initial empty dict `{}` (which is
falsy); `title = some runs` models `{"runs": runs}` (truthy even when `runs`
is empty). -/
structure Slide where
  title : Option (List Run)
  layout : String
  placeholders : List (List CTok)
  notes : List String
deriving DecidableEq, Repr

/-- `NEW_SLIDE` in `process_json`. -/
def newSlide : Slide :=
  ⟨none, "", [[]], []⟩

/-! ## List flattening (json2slide.py, `process_list`) -/

mutual

/-- `process_list.iter_token`.  `topOrd` models the Python default argument
`ordered=ordered`, which is bound once to the `ordered` argument of
`process_list` and used whenever a call site omits the third argument.
Returning `[]` merges Python's `None` result with the empty list: every call
site only ever extends an accumulator with the result. -/
def iterToken (topOrd : Bool) (t : Tok) (depth : Nat) (ordered : Bool) :
    List ListItemRec :=
  match t with
  | .mk ty _ attrs children _ _ =>
    if ty = "list" then
      -- depth increases by one and `ordered` is re-read from this list's attrs
      iterListChildren topOrd children (depth + 1) (attrs.ordered.getD false)
    else if ty = "list_item" then
      let p := iterItemChildren topOrd children depth none []
      (match p.1 with
       | some rs => if rs.isEmpty then [] else [⟨depth, rs, ordered⟩]
       | none => []) ++ p.2
    else if ty = "block_text" ∨ ty = "paragraph" then
      [⟨depth, processChildrenRuns children {}, ordered⟩]
    else []

/-- The `for child in token.get("children", [])` loop of the `list` branch of
`iter_token`: flattens every child at the new depth. -/
def iterListChildren (topOrd : Bool) (l : List Tok) (depth : Nat)
    (ordered : Bool) : List ListItemRec :=
  match l with
  | [] => []
  | c :: cs =>
    iterToken topOrd c depth ordered ++ iterListChildren topOrd cs depth ordered

/-- The `for child in token.get("children", [])` loop of the `list_item`
branch: `runs` keeps the runs of the most recent `block_text` child (later
assignments overwrite), `extras` accumulates flattened nested results in
order.  Children that are neither `list` nor `block_text` fall to the same
recursion as nested lists, called with the default `ordered` value. -/
def iterItemChildren (topOrd : Bool) (l : List Tok) (depth : Nat)
    (runs : Option (List Run)) (extras : List ListItemRec) :
    Option (List Run) × List ListItemRec :=
  match l with
  | [] => (runs, extras)
  | c :: cs =>
    if c.ty = "list" then
      iterItemChildren topOrd cs depth runs
        (extras ++ iterToken topOrd c depth topOrd)
    else if c.ty = "block_text" then
      iterItemChildren topOrd cs depth
        (some (processChildrenRuns c.children {})) extras
    else
      iterItemChildren topOrd cs depth runs
        (extras ++ iterToken topOrd c depth topOrd)

end

/-- `process_list(list_token, ordered)`: flattens the children of the list
token at depth 0; call sites omitting `ordered` get the default `topOrd`.
The result is the `children` entry of the `{"type": "list", ...}` dict. -/
def processList (t : Tok) (topOrd : Bool) : List ListItemRec :=
  iterListChildren topOrd t.children 0 topOrd

/-! ## Table flattening (json2slide.py, `process_table`) -/

/-- `process_table.process_cell`. -/
def processCell (cell : Tok) : Cell :=
  ⟨processChildrenRuns cell.children {}, cell.attrs.align.getD ""⟩

/-- `process_table`.  The accesses `table['children'][0]` and `[1]` raise when
fewer than two children exist (modelled by `none`); the truthiness guards
`if head_data:` and `if body_data:` skip empty (or absent, which Python merges
with a falsy `False` default) cell lists. -/
def processTable (t : Tok) : Option (List Cell × List (List Cell)) :=
  match t.children[0]? with
  | none => none
  | some c0 =>
    match t.children[1]? with
    | none => none
    | some c1 =>
      let headData := c0.children
      let bodyData := c1.children
      let head := if headData.isEmpty then [] else headData.map processCell
      let body :=
        if bodyData.isEmpty then []
        else bodyData.map (fun row => row.children.map processCell)
      some (head, body)

/-! ## Percent decoding (urllib.parse.unquote model) -/

/-- Value of a hexadecimal digit character, `none` when not a hex digit. -/
def hexVal (c : Char) : Option Nat :=
  if '0' ≤ c ∧ c ≤ '9' then some (c.toNat - '0'.toNat)
  else if 'a' ≤ c ∧ c ≤ 'f' then some (c.toNat - 'a'.toNat + 10)
  else if 'A' ≤ c ∧ c ≤ 'F' then some (c.toNat - 'A'.toNat + 10)
  else none

/-- Character-level model of `urllib.parse.unquote` restricted to single-byte
escape sequences: each `%XX` with two hex digits becomes the character with
code `XX`; malformed escapes are left untouched.  `unquote` is an external
standard-library collaborator of `src/json2slide.py`; multi-byte UTF-8
recombination is out of scope of the claims. -/
def percentDecodeGo : Nat → List Char → List Char
  | 0, l => l
  | _, [] => []
  | fuel + 1, c :: rest =>
    if c = '%' then
      match rest with
      | h1 :: h2 :: rest2 =>
        match hexVal h1, hexVal h2 with
        | some a, some b => Char.ofNat (16 * a + b) :: percentDecodeGo fuel rest2
        | _, _ => '%' :: percentDecodeGo fuel rest
      | _ => '%' :: percentDecodeGo fuel rest
    else c :: percentDecodeGo fuel rest

/-- String form of `percentDecodeGo`.  Every step consumes at least one
character, so fueling the recursion with the input length makes the
fuel-exhausted branch unreachable. -/
def percentDecode (s : String) : String :=
  ⟨percentDecodeGo s.data.length s.data⟩

/-- The conditional on line 262 of `src/json2slide.py`:
`url = url_o if parse.unquote(url_o) == url_o else parse.unquote(url_o)` —
decode only when decoding would change the string. -/
def imageUrlChoice (u : String) : String :=
  if percentDecode u = u then u else percentDecode u

/-! ## The segmenter state machine (json2slide.py, `process_json`)

The mutable locals of `process_json` become an explicit state record.
`prev_token` is a full dict in the source, but the only key ever read from it
is `consume` (by `is_shared`), so only that tag is kept; `none` models the
initial empty dict, whose `.get("consume")` is not `"shared"`.
`finCount` instruments the number of `finalize_slide` calls.  Operations
return `none` where the Python raises (out-of-range indexing). -/

structure SegState where
  slides : List Slide
  currentSlide : Nat
  currentPlaceholder : Nat
  prevConsume : Option Consume
  finCount : Nat
deriving DecidableEq, Repr

/-- The state at the top of the token loop: one fresh slide, both cursors at
zero, `prev_token = {}`. -/
def initState : SegState :=
  ⟨[newSlide], 0, 0, none, 0⟩

/-- `determine_layout(slide)`.  A layout already set by a directive is
returned unchanged; otherwise the number of non-empty placeholders selects the
layout.  In the two-placeholder case the source reads
`slide['placeholders'][0][0]` and `slide['placeholders'][1][0]`, which raises
`IndexError` when placeholder 0 or 1 is empty (`none`). -/
def determineLayout (s : Slide) : Option String :=
  if s.layout ≠ "" then some s.layout
  else
    let n := (s.placeholders.filter (fun p => p.length > 0)).length
    match n with
    | 0 => some "section_header"
    | 1 => some "title_and_content"
    | 2 =>
      match s.placeholders[0]? with
      | none => none
      | some ph0 =>
        match ph0[0]? with
        | none => none
        | some t0 =>
          match s.placeholders[1]? with
          | none => none
          | some ph1 =>
            match ph1[0]? with
            | none => none
            | some t1 =>
              let first := t0.consume ≠ Consume.monopoly
              let second := t1.consume ≠ Consume.monopoly
              if first ∧ second then some "two_content"
              else some "content_with_caption"
    | _ => some ""

/-- `finalize_slide(finalize_doc)`: resolve the current slide's layout,
advance the slide cursor, reset the placeholder cursor, and append a fresh
slide unless the document is being finalized. -/
def finalizeSlide (st : SegState) (finalizeDoc : Bool) : Option SegState :=
  match st.slides[st.currentSlide]? with
  | none => none
  | some s =>
    match determineLayout s with
    | none => none
    | some lay =>
      let slides1 := st.slides.set st.currentSlide { s with layout := lay }
      let slides2 := if finalizeDoc then slides1 else slides1 ++ [newSlide]
      some { slides := slides2, currentSlide := st.currentSlide + 1,
             currentPlaceholder := 0, prevConsume := st.prevConsume,
             finCount := st.finCount + 1 }

/-- `add_placeholder()`: append a new empty placeholder to the current slide
and advance the placeholder cursor. -/
def addPlaceholder (st : SegState) : Option SegState :=
  match st.slides[st.currentSlide]? with
  | none => none
  | some s =>
    let s2 := { s with placeholders := s.placeholders ++ [[]] }
    some { st with slides := st.slides.set st.currentSlide s2,
                   currentPlaceholder := st.currentPlaceholder + 1 }

/-- The tail of `add_token`: the current placeholder is re-fetched after the
possible break, the tagged token is appended, and the previous-token memo
updated. -/
def appendToCurrent (st1 : SegState) (val : CVal) (consume : Consume) :
    Option SegState :=
  match st1.slides[st1.currentSlide]? with
  | none => none
  | some s1 =>
    match s1.placeholders[st1.currentPlaceholder]? with
    | none => none
    | some ph1 =>
      let s2 := { s1 with
        placeholders :=
          s1.placeholders.set st1.currentPlaceholder (ph1 ++ [⟨val, consume⟩]) }
      some { st1 with slides := st1.slides.set st1.currentSlide s2,
                      prevConsume := some consume }

/-- `add_token(token, consume)`: keep the current placeholder when it is empty
or when both the previous token and this one are `shared`; otherwise break to
a new placeholder first; then append via `appendToCurrent`. -/
def addToken (st : SegState) (val : CVal) (consume : Consume) :
    Option SegState :=
  match st.slides[st.currentSlide]? with
  | none => none
  | some s =>
    match s.placeholders[st.currentPlaceholder]? with
    | none => none
    | some ph =>
      if ph.isEmpty ∨
          (st.prevConsume = some Consume.shared ∧ consume = Consume.shared) then
        appendToCurrent st val consume
      else
        match addPlaceholder st with
        | none => none
        | some st1 => appendToCurrent st1 val consume

/-- Replace the current slide's title, as the assignments to
`processed["slides"][current_slide]["title"]` do. -/
def setTitle (st : SegState) (title : Option (List Run)) : Option SegState :=
  match st.slides[st.currentSlide]? with
  | none => none
  | some s =>
    some { st with
      slides := st.slides.set st.currentSlide { s with title := title } }

/-- One iteration of the `for token in tokens` dispatch loop of
`process_json`.  Branches follow the source `match` statement; a Python
`match` with no matching case is a no-op, and unrecognized token types are
only logged. -/
def stepToken (st : SegState) (t : Tok) : Option SegState :=
  match t.ty with
  | "heading" =>
    match t.attrs.level with
    | none => none
    | some level =>
      match level with
      | 1 | 2 =>
        match finalizeSlide st false with
        | none => none
        | some st1 => setTitle st1 (some (paragraphRuns t.children))
      | 3 | 4 | 5 | 6 =>
        addToken st (.heading level (paragraphRuns t.children)) .shared
      | _ => some st
  | "thematic_break" =>
    match finalizeSlide st false with
    | none => none
    | some st1 =>
      match st1.slides[st1.currentSlide - 1]? with
      | none => none
      | some sPrev => setTitle st1 sPrev.title
  | "wildcard_break" => addPlaceholder st
  | "block_quote" =>
    match t.children[0]? with
    | none => none
    | some c0 => addToken st (.blockQuote (paragraphRuns c0.children)) .shared
  | "paragraph" =>
    match t.children[0]? with
    | none => none
    | some child =>
      match child.ty with
      | "text" =>
        match child.raw with
        | none => none
        | some raw =>
          if raw ≠ "" then
            addToken st (.paragraph (paragraphRuns t.children)) .shared
          else some st
      | "link" => addToken st (.paragraph (paragraphRuns t.children)) .shared
      | "image" =>
        match child.attrs.url with
        | none => none
        | some urlO =>
          match child.children[0]? with
          | none => none
          | some a0 =>
            match a0.raw with
            | none => none
            | some alt =>
              addToken st
                (.image (imageUrlChoice urlO) (if alt = "" then none else some alt))
                .monopoly
      | _ => some st
  | "list" =>
    addToken st (.list (processList t (t.attrs.ordered.getD false))) .shared
  | "block_code" =>
    match t.raw with
    | none => none
    | some raw => addToken st (.code (t.attrs.info.getD "") raw) .shared
  | "comment_block" =>
    match t.key with
    | none => none
    | some k =>
      match t.value with
      | none => none
      | some v =>
        match k with
        | "layout" =>
          match st.slides[st.currentSlide]? with
          | none => none
          | some s =>
            some { st with
              slides := st.slides.set st.currentSlide { s with layout := v } }
        | "note" =>
          match st.slides[st.currentSlide]? with
          | none => none
          | some s =>
            some { st with
              slides := st.slides.set st.currentSlide
                { s with notes := s.notes ++ [v] } }
        | _ => some st
  | "blank_line" => some st
  | "table" =>
    match processTable t with
    | none => none
    | some hb => addToken st (.table hb.1 hb.2) .monopoly
  | _ => some st

/-- The `for token in tokens` loop. -/
def runTokens (st : SegState) : List Tok → Option SegState
  | [] => some st
  | t :: ts =>
    match stepToken st t with
    | none => none
    | some st1 => runTokens st1 ts

/-- The segmenter pass up to and including the final `finalize_slide(True)`:
the state still holds the slide list before empty-slide pruning. -/
def runSegmenter (tokens : List Tok) : Option SegState :=
  match runTokens initState tokens with
  | none => none
  | some st => finalizeSlide st true

/-! ## Empty-slide pruning (json2slide.py, lines 302-306) -/

/-- The vacuity test of the pruning loop: `not slide['title']` and
`not slide['placeholders'][0]`.  A slide with an empty placeholder list is
unreachable (every slide is created with one placeholder and placeholders are
only appended). -/
def vacuousSlide (s : Slide) : Bool :=
  s.title.isNone &&
    (match s.placeholders with
     | [] => true
     | p :: _ => p.isEmpty)

/-- `list.remove(x)`: remove the first element equal to `x` (Python uses
value equality). -/
def removeFirst [DecidableEq α] : List α → α → List α
  | [], _ => []
  | x :: xs, a => if x = a then xs else x :: removeFirst xs a

/-- Removing an element never lengthens a list. -/
theorem removeFirst_length_le [DecidableEq α] (l : List α) (a : α) :
    (removeFirst l a).length ≤ l.length := by
  induction l with
  | nil => simp [removeFirst]
  | cons x xs ih =>
    by_cases hx : x = a
    · simp [removeFirst, hx]
    · simp only [removeFirst, hx, if_false, List.length_cons]
      omega

/-- The `for slide in processed['slides']` loop with its in-place
`processed['slides'].remove(slide)`: Python's list iterator advances an index
over the list as it is being mutated, so after a removal the element that
slid into the removed slot is skipped.  `fuel` is a structural iteration
bound; the loop runs while `i` is below the current length, which never
exceeds the initial length, so starting `fuel` at the initial length makes
the fuel-exhausted branch unreachable. -/
def pruneGo : Nat → List Slide → Nat → List Slide
  | 0, l, _ => l
  | fuel + 1, l, i =>
    if h : i < l.length then
      pruneGo fuel
        (if vacuousSlide (l.get ⟨i, h⟩) then removeFirst l (l.get ⟨i, h⟩) else l)
        (i + 1)
    else l

/-- The pruning pass over the finalized slide list. -/
def pruneSlides (l : List Slide) : List Slide :=
  pruneGo l.length l 0

/-- `process_json`, restricted to its slide output: run the segmenter over the
token stream, finalize the document, and prune.  `none` models an uncaught
exception aborting the conversion. -/
def processJson (tokens : List Tok) : Option (List Slide) :=
  (runSegmenter tokens).map (fun st => pruneSlides st.slides)

/-! ## Alignment (json2pptx.py, `calc_resloc`)

Geometry uses exact rationals for the Python float arithmetic. -/

/-- A placeholder box `p.left, p.top, p.width, p.height` (also the `resloc`
result dict of `calc_resloc`, and the four-field shape copy used by the grow
application). -/
structure PBox where
  left : ℚ
  top : ℚ
  width : ℚ
  height : ℚ
deriving DecidableEq, Repr

/-- The `align_val` computation of `calc_resloc`: `align : Option ℤ` models
the result of the `int(align)` conversion attempt, `none` standing for a
raised exception (caught and replaced by 5); values outside 1..9 are also
replaced by 5. -/
def alignValOf (align : Option ℤ) : ℤ :=
  let a : ℤ := match align with
    | some v => v
    | none => 5
  if a < 1 ∨ a > 9 then 5 else a

/-- The `factor_x` chain of `calc_resloc`: left column of the numpad gives 0,
middle 1/2, right 1. -/
def factorXOf (a : ℤ) : ℚ :=
  if a = 1 ∨ a = 4 ∨ a = 7 then 0
  else if a = 2 ∨ a = 5 ∨ a = 8 then 1/2
  else 1

/-- The `factor_y` chain of `calc_resloc`: top row of the numpad gives 0,
middle 1/2, bottom 1. -/
def factorYOf (a : ℤ) : ℚ :=
  if a = 7 ∨ a = 8 ∨ a = 9 then 0
  else if a = 4 ∨ a = 5 ∨ a = 6 then 1/2
  else 1

/-- `calc_resloc(p, i, align)`: the image is fitted to the placeholder by
aspect ratio and offset along the non-fitted axis by the numpad alignment
factors. -/
def calcResloc (p : PBox) (iw ih : ℚ) (align : Option ℤ) : PBox :=
  let alignVal := alignValOf align
  let factorX := factorXOf alignVal
  let factorY := factorYOf alignVal
  let pRatio := p.width / p.height
  let iRatio := iw / ih
  if iRatio < pRatio then
    let newWidth := p.height * iRatio
    let newLeft := p.left + (p.width - newWidth) * factorX
    ⟨newLeft, p.top, newWidth, p.height⟩
  else
    let newHeight := p.width / iRatio
    let newTop := p.top + (p.height - newHeight) * factorY
    ⟨p.left, newTop, p.width, newHeight⟩

/-! ## Expansion (utils/expand.py and the identical copy in json2pptx.py) -/

/-- A shape dict as built by `dict_shape`: position and size in the
presentation's length unit, plus the optional `margin` annotation from the
placeholder-name JSON (read with `.get("margin", 0)`, so absence is 0).  The
annotation is given in inches and converted by `emu` where used. -/
structure GShape where
  left : ℚ
  top : ℚ
  width : ℚ
  height : ℚ
  margin : ℚ := 0
deriving DecidableEq, Repr

/-- Derived `right` edge added by `coordinatify`. -/
def GShape.right (s : GShape) : ℚ := s.left + s.width

/-- Derived `bottom` edge added by `coordinatify`. -/
def GShape.bottom (s : GShape) : ℚ := s.top + s.height

/-- The four directions iterated by `expand` (the tuple `dir['d']`). -/
inductive Dir where
  | left
  | right
  | above
  | below
deriving DecidableEq, Repr

/-- `are_related(foo, bar, direction)`: `bar` lies strictly on the given side
of `foo` and their spans on the perpendicular axis intersect
(`max(starts) <= min(ends)`). -/
def areRelated (foo bar : GShape) : Dir → Prop
  | .left =>
    bar.left + bar.width ≤ foo.left ∧
      max foo.top bar.top ≤ min (foo.top + foo.height) (bar.top + bar.height)
  | .right =>
    bar.left ≥ foo.left + foo.width ∧
      max foo.top bar.top ≤ min (foo.top + foo.height) (bar.top + bar.height)
  | .above =>
    bar.top + bar.height ≤ foo.top ∧
      max foo.left bar.left ≤ min (foo.left + foo.width) (bar.left + bar.width)
  | .below =>
    bar.top ≥ foo.top + foo.height ∧
      max foo.left bar.left ≤ min (foo.left + foo.width) (bar.left + bar.width)

instance (foo bar : GShape) (d : Dir) : Decidable (areRelated foo bar d) :=
  match d with
  | .left => inferInstanceAs (Decidable (_ ∧ _))
  | .right => inferInstanceAs (Decidable (_ ∧ _))
  | .above => inferInstanceAs (Decidable (_ ∧ _))
  | .below => inferInstanceAs (Decidable (_ ∧ _))

/-- `find_canvas(shapes)`: the bounding box of all shapes.  The Python `min`
over an empty list raises; `expand` is only reached with the subject present,
so the empty case is given an arbitrary box. -/
def findCanvas : List GShape → GShape
  | [] => ⟨0, 0, 0, 0, 0⟩
  | x :: xs =>
    let top := xs.foldl (fun a s => min a s.top) x.top
    let left := xs.foldl (fun a s => min a s.left) x.left
    let r := xs.foldl (fun a s => max a (s.left + s.width)) (x.left + x.width)
    let b := xs.foldl (fun a s => max a (s.top + s.height)) (x.top + x.height)
    ⟨left, top, r - left, b - top, 0⟩

/-- Python `int()`: truncation toward zero. -/
def pyInt (q : ℚ) : ℤ :=
  if 0 ≤ q then ⌊q⌋ else ⌈q⌉

/-- The inner `emu` helper of `greater_margin`: a margin annotation in inches
becomes the presentation's length unit (914400 per inch), truncated to an
integer. -/
def emu (v : ℚ) : ℤ :=
  pyInt (v * 914400)

/-- `greater_margin(foo, bar)`: the larger of the two margin annotations,
converted to length units. -/
def greaterMargin (foo bar : GShape) : ℤ :=
  if foo.margin > bar.margin then emu foo.margin else emu bar.margin

/-- The subject's edge consulted for a direction: `foo[dir[d][0]]`. -/
def subjEdge (s : GShape) : Dir → ℚ
  | .left => s.left
  | .right => s.right
  | .above => s.top
  | .below => s.bottom

/-- The facing edge of a neighbor for a direction: `bar[dir[d][1]]`. -/
def facingEdge (s : GShape) : Dir → ℚ
  | .left => s.right
  | .right => s.left
  | .above => s.bottom
  | .below => s.top

/-- The canvas edge consulted in the no-neighbor fallback:
`canvas[dir[d][0]]`. -/
def canvasEdge (c : GShape) : Dir → ℚ
  | .left => c.left
  | .right => c.right
  | .above => c.top
  | .below => c.bottom

/-- The per-neighbor bound inside the `min(...)` generator:
`abs(foo[dir[d][0]] - bar[dir[d][1]]) - greater_margin(foo, bar)`. -/
def neighborBound (foo bar : GShape) (d : Dir) : ℚ :=
  |subjEdge foo d - facingEdge bar d| - (greaterMargin foo bar : ℚ)

/-- The body of the `for d in dir['d']` loop of `expand`, for one direction:
the minimum neighbor bound when some other shape qualifies, else the distance
to the canvas edge.  `none` models the `IndexError` of `sphs.pop(idx)` on an
invalid index. -/
def expandDelta (shapes : List GShape) (idx : Nat) (d : Dir) : Option ℚ :=
  match shapes[idx]? with
  | none => none
  | some foo =>
    let bars := shapes.eraseIdx idx
    let canvas := findCanvas shapes
    let related := bars.filter (fun s => decide (areRelated foo s d))
    match related with
    | [] => some |subjEdge foo d - canvasEdge canvas d|
    | b :: bs =>
      some (bs.foldl (fun a bar => min a (neighborBound foo bar d))
        (neighborBound foo b d))

/-- `expand(shapes, idx, p)`: the four directional deltas. -/
def expand (shapes : List GShape) (idx : Nat) : Option (Dir → ℚ) :=
  match expandDelta shapes idx .left, expandDelta shapes idx .right,
      expandDelta shapes idx .above, expandDelta shapes idx .below with
  | some l, some r, some a, some b =>
    some (fun d => match d with
      | .left => l
      | .right => r
      | .above => a
      | .below => b)
  | _, _, _, _ => none

/-! ## Grow application (json2pptx.py, `convert_json_to_pptx` lines 132-156) -/

/-- The grow application: a copy `foo_shp` of the subject's geometry is taken
first, the sequential `if` chain updates the copy, and only then are all four
fields written back to the shape — modelled as a pure function from the
pre-update box to the post-update box. -/
def applyGrow (sh : PBox) (grow : ℤ) (l r a b : ℚ) : PBox :=
  let f := sh
  let f := if grow = 1 ∨ grow = 2 ∨ grow = 3 then
    { f with height := f.height + b } else f
  let f := if grow = 1 ∨ grow = 4 ∨ grow = 7 then
    { f with left := f.left - l, width := f.width + l + r } else f
  let f := if grow = 3 ∨ grow = 6 ∨ grow = 9 then
    { f with width := f.width + r } else f
  let f := if grow = 7 ∨ grow = 8 ∨ grow = 9 then
    { f with top := f.top - a, height := f.height + a + b } else f
  let f := if grow = 5 then
    { f with left := f.left - l, top := f.top - a,
             width := f.width + l + r, height := f.height + a + b } else f
  f

/-! ## Concrete token fixtures used to evaluate the segmenter -/

/-- A `thematic_break` token as produced by the wildcard-break plugin. -/
def tbTok : Tok := .mk "thematic_break" none {} [] none none

/-- A `wildcard_break` token. -/
def wbTok : Tok := .mk "wildcard_break" none {} [] none none

/-- A mistune inline `text` token. -/
def textTok (s : String) : Tok := .mk "text" (some s) {} [] none none

/-- A mistune inline `softbreak` token: no `raw`, no `children`. -/
def softbreakTok : Tok := .mk "softbreak" none {} [] none none

/-- A paragraph whose sole child is plain text. -/
def paraTok (s : String) : Tok := .mk "paragraph" none {} [textTok s] none none

/-- A level-1 heading. -/
def h1Tok (s : String) : Tok :=
  .mk "heading" none { level := some 1 } [textTok s] none none

/-- A paragraph whose sole child is an image with the given url and alt
text. -/
def imgParaTok (url alt : String) : Tok :=
  .mk "paragraph" none {}
    [.mk "image" none { url := some url } [textTok alt] none none] none none

/-- The wholly vacuous slide produced by an input holding no content. -/
def vacSectionSlide : Slide := ⟨none, "section_header", [[]], []⟩

/-- The run made from a bare single space, carrying no styling. -/
def spaceRun : Run := ⟨false, false, false, none, " "⟩

/-! ## Claim C2 -/

/-- C2: the claim that the segmenter drops every wholly vacuous slide fails.
The stream `[thematic_break]` produces two adjacent vacuous slides before
pruning, both vacuous by `vacuousSlide`, yet the returned document still
contains one of them: the pruning loop removes elements of the list it is
iterating over, so the element sliding into a removed slot is skipped. -/
theorem pruneLeavesAdjacentVacuousSlide :
    (runSegmenter [tbTok]).map SegState.slides
        = some [vacSectionSlide, vacSectionSlide] ∧
    vacuousSlide vacSectionSlide = true ∧
    processJson [tbTok] = some [vacSectionSlide] :=
  ⟨rfl, rfl, rfl⟩

/-! ## Claim C3 -/

/-- C3: the claim that the single pass raises no exception fails.  On the
stream `[wildcard_break, paragraph "x", wildcard_break, paragraph "y"]` the
token loop itself succeeds and builds the reachable slide state
`placeholders = [[], [x], [y]]` (an empty placeholder before two non-empty
ones), but the final `finalize_slide` aborts: `determine_layout` counts two
non-empty placeholders and then indexes `placeholders[0][0]`, raising
`IndexError` (modelled by `none`) and aborting the whole conversion. -/
theorem determineLayoutRaisesOnEmptyFirstPlaceholder :
    (runTokens initState [wbTok, paraTok "x", wbTok, paraTok "y"]).isSome = true ∧
    determineLayout
        ⟨none, "",
         [[], [⟨.paragraph [⟨false, false, false, none, "x"⟩], .shared⟩],
          [⟨.paragraph [⟨false, false, false, none, "y"⟩], .shared⟩]], []⟩ = none ∧
    processJson [wbTok, paraTok "x", wbTok, paraTok "y"] = none :=
  ⟨rfl, rfl, rfl⟩

/-! ## Claim C9 -/

/-- C9 counterexample: a softbreak token contributes no run at all, not a
single-space run: the run builder of `json2slide.py` has no softbreak case
and a softbreak token carries neither `raw` nor `children`. -/
theorem softbreakEmitsNoRun_counterexample :
    paragraphRuns [softbreakTok] = [] ∧
    paragraphRuns [softbreakTok] ≠ [spaceRun] :=
  ⟨rfl, by decide⟩

/-- The run builder distributes over list concatenation. -/
theorem processChildrenRuns_append (l1 l2 : List Tok) (st : RStyle) :
    processChildrenRuns (l1 ++ l2) st
      = processChildrenRuns l1 st ++ processChildrenRuns l2 st := by
  induction l1 with
  | nil => simp [processChildrenRuns]
  | cons c cs ih => simp [processChildrenRuns, ih]

/-- C9 amended: a softbreak token contributes no Run: the run builder emits a
run only for a token with a `raw` field and recurses only into `children`, and
a softbreak token has neither, so it is dropped from the flat run sequence
wherever it occurs. -/
theorem softbreakEmitsNoRun (st : RStyle) (pre post : List Tok) :
    processTokenRuns softbreakTok st = [] ∧
    paragraphRuns (pre ++ softbreakTok :: post)
      = paragraphRuns pre ++ paragraphRuns post := by
  constructor
  · rfl
  · show processChildrenRuns (pre ++ softbreakTok :: post) {}
        = processChildrenRuns pre {} ++ processChildrenRuns post {}
    rw [processChildrenRuns_append]
    have h : processChildrenRuns (softbreakTok :: post) {}
        = processChildrenRuns post {} := by
      show processTokenRuns softbreakTok {} ++ processChildrenRuns post {}
          = processChildrenRuns post {}
      rfl
    rw [h]

/-! ## Claim C10 -/

/-- C10: when a paragraph's sole child is an image, the segmenter appends an
image content token with `consume = monopoly` whose url is the percent-decoded
`attrs.url`: the source's decode-only-if-it-was-percent-encoded conditional
(`imageUrlChoice`) is extensionally equal to unconditional decoding, for every
input string. -/
theorem imageUrlAlwaysDecoded (st : SegState) (u alt : String) :
    imageUrlChoice u = percentDecode u ∧
    stepToken st (imgParaTok u alt)
      = addToken st
          (CVal.image (percentDecode u) (if alt = "" then none else some alt))
          Consume.monopoly := by
  have hch : imageUrlChoice u = percentDecode u := by
    by_cases hc : percentDecode u = u
    · simp [imageUrlChoice, hc]
    · simp [imageUrlChoice, hc]
  refine ⟨hch, ?_⟩
  have h2 : stepToken st (imgParaTok u alt)
      = addToken st
          (CVal.image (imageUrlChoice u) (if alt = "" then none else some alt))
          Consume.monopoly := rfl
  rw [h2, hch]

/-! ## Claim C4 -/

/-- C4: layout inference from the count of non-empty placeholders.  A layout
set by a directive is returned unchanged; otherwise 0 non-empty placeholders
give `section_header`, 1 gives `title_and_content`, and 2 give `two_content`
exactly when neither the first token of placeholder 0 nor the first token of
placeholder 1 is `monopoly`, and `content_with_caption` otherwise. -/
theorem determineLayoutResolution (s : Slide) :
    (s.layout ≠ "" → determineLayout s = some s.layout) ∧
    (s.layout = "" →
      ((s.placeholders.filter (fun p => p.length > 0)).length = 0 →
        determineLayout s = some "section_header") ∧
      ((s.placeholders.filter (fun p => p.length > 0)).length = 1 →
        determineLayout s = some "title_and_content") ∧
      ((s.placeholders.filter (fun p => p.length > 0)).length = 2 →
        ∀ pa a pb b, s.placeholders[0]? = some pa → pa[0]? = some a →
          s.placeholders[1]? = some pb → pb[0]? = some b →
          determineLayout s =
            some (if a.consume ≠ Consume.monopoly ∧ b.consume ≠ Consume.monopoly
                  then "two_content" else "content_with_caption"))) := by
  refine ⟨fun h => by simp [determineLayout, h], fun h => ⟨?_, ?_, ?_⟩⟩
  · intro hn
    simp [determineLayout, h, hn]
  · intro hn
    simp [determineLayout, h, hn]
  · intro hn pa a pb b hpa ha hpb hb
    by_cases hm : a.consume ≠ Consume.monopoly ∧ b.consume ≠ Consume.monopoly
    · simp [determineLayout, h, hn, hpa, ha, hpb, hb, hm]
    · simp [determineLayout, h, hn, hpa, ha, hpb, hb, hm]

/-- C4 witness: a slide with two non-empty placeholders whose second starts
with a monopoly token resolves to `content_with_caption`. -/
theorem determineLayoutResolution_witness :
    determineLayout
        ⟨none, "",
         [[⟨.paragraph [], .shared⟩], [⟨.image "u" none, .monopoly⟩]], []⟩
      = some "content_with_caption" := by
  have h := (determineLayoutResolution
      ⟨none, "",
       [[⟨.paragraph [], .shared⟩], [⟨.image "u" none, .monopoly⟩]], []⟩).2
      rfl
  have h2 := h.2.2 (by decide) [⟨.paragraph [], .shared⟩] ⟨.paragraph [], .shared⟩
      [⟨.image "u" none, .monopoly⟩] ⟨.image "u" none, .monopoly⟩ rfl rfl rfl rfl
  simpa using h2

/-! ## Claim C6 -/

/-- C6: for a container with positive extent and content with positive
dimensions, `calc_resloc` clamps a non-1..9 (or unconvertible) align to 5 and
fits by aspect ratio: a relatively narrower content fits the full container
height, with the horizontal leftover distributed by the x factor; otherwise it
fits the full container width, with the vertical leftover distributed by the
y factor. -/
theorem calcReslocSpec (p : PBox) (iw ih : ℚ) (align : Option ℤ)
    (_hw : 0 < p.width) (_hh : 0 < p.height) (_hiw : 0 < iw) (_hih : 0 < ih) :
    alignValOf align =
      (match align with
       | none => 5
       | some v => if 1 ≤ v ∧ v ≤ 9 then v else 5) ∧
    (iw / ih < p.width / p.height →
      calcResloc p iw ih align =
        ⟨p.left + (p.width - p.height * (iw / ih)) * factorXOf (alignValOf align),
         p.top, p.height * (iw / ih), p.height⟩) ∧
    (¬ iw / ih < p.width / p.height →
      calcResloc p iw ih align =
        ⟨p.left,
         p.top + (p.height - p.width / (iw / ih)) * factorYOf (alignValOf align),
         p.width, p.width / (iw / ih)⟩) := by
  refine ⟨?_, ?_, ?_⟩
  · cases align with
    | none => rfl
    | some v =>
      by_cases hv : v < 1 ∨ v > 9
      · have h2 : ¬ (1 ≤ v ∧ v ≤ 9) := by omega
        simp [alignValOf, hv, h2]
      · have h2 : 1 ≤ v ∧ v ≤ 9 := by omega
        simp [alignValOf, hv, h2]
  · intro hc
    simp only [calcResloc]
    rw [if_pos hc]
  · intro hc
    simp only [calcResloc]
    rw [if_neg hc]

/-- C6 witness: a 4-by-2 container with square content and an absent align
annotation centers the fitted square horizontally. -/
theorem calcReslocSpec_witness :
    calcResloc ⟨0, 0, 4, 2⟩ 1 1 none = ⟨1, 0, 2, 2⟩ := by
  have h := (calcReslocSpec ⟨0, 0, 4, 2⟩ 1 1 none (by norm_num) (by norm_num)
      (by norm_num) (by norm_num)).2.1 (by norm_num)
  rw [h]
  norm_num [alignValOf, factorXOf]

/-! ## Claim C8 -/

/-- C8: the grow application, for any code in 1..9, changes exactly the edges
selected by the numpad semantics, each output field a function of the
pre-update geometry alone: codes {1,2,3} add the below delta to height,
{1,4,7} subtract the left delta from left and add left plus right to width,
{3,6,9} add the right delta to width, {7,8,9} subtract the above delta from
top and add above plus below to height, and 5 applies all four. -/
theorem applyGrowSpec (sh : PBox) (g : ℤ) (l r a b : ℚ)
    (h1 : 1 ≤ g) (h9 : g ≤ 9) :
    applyGrow sh g l r a b =
      ⟨sh.left - (if g = 1 ∨ g = 4 ∨ g = 7 ∨ g = 5 then l else 0),
       sh.top - (if g = 7 ∨ g = 8 ∨ g = 9 ∨ g = 5 then a else 0),
       sh.width + (if g = 1 ∨ g = 4 ∨ g = 7 ∨ g = 5 then l + r else 0)
                + (if g = 3 ∨ g = 6 ∨ g = 9 then r else 0),
       sh.height + (if g = 1 ∨ g = 2 ∨ g = 3 then b else 0)
                 + (if g = 7 ∨ g = 8 ∨ g = 9 ∨ g = 5 then a + b else 0)⟩ := by
  interval_cases g <;> simp [applyGrow, add_assoc]

/-- C8 witness: grow code 5 expands all four edges at once. -/
theorem applyGrowSpec_witness :
    applyGrow ⟨10, 20, 30, 40⟩ 5 1 2 3 4 = ⟨9, 17, 33, 47⟩ := by
  have h := applyGrowSpec ⟨10, 20, 30, 40⟩ 5 1 2 3 4 (by norm_num) (by norm_num)
  rw [h]
  norm_num

/-! ## Claim C7 -/

/-- A left-to-right minimum over `f`-images never exceeds its seed, matching
Python's `min` over a generator. -/
theorem foldl_min_le_init {α β : Type} [LinearOrder β] (f : α → β)
    (l : List α) (init : β) :
    l.foldl (fun acc x => min acc (f x)) init ≤ init := by
  induction l generalizing init with
  | nil => simp
  | cons c cs ih => exact le_trans (ih (min init (f c))) (min_le_left _ _)

/-- The folded minimum bounds every image of a list member. -/
theorem foldl_min_le_mem {α β : Type} [LinearOrder β] (f : α → β)
    (l : List α) (init : β) (x : α) (hx : x ∈ l) :
    l.foldl (fun acc y => min acc (f y)) init ≤ f x := by
  induction l generalizing init with
  | nil => cases hx
  | cons c cs ih =>
    rcases List.mem_cons.mp hx with h | h
    · subst h
      exact le_trans (foldl_min_le_init f cs (min init (f x))) (min_le_right _ _)
    · exact ih (min init (f c)) h

/-- The folded minimum is its seed or the image of some list member. -/
theorem foldl_min_eq_init_or_mem {α β : Type} [LinearOrder β] (f : α → β)
    (l : List α) (init : β) :
    l.foldl (fun acc y => min acc (f y)) init = init ∨
      ∃ x ∈ l, l.foldl (fun acc y => min acc (f y)) init = f x := by
  induction l generalizing init with
  | nil => exact Or.inl rfl
  | cons c cs ih =>
    have hstep : (c :: cs).foldl (fun acc y => min acc (f y)) init
        = cs.foldl (fun acc y => min acc (f y)) (min init (f c)) := rfl
    rcases ih (min init (f c)) with h | ⟨x, hx, he⟩
    · rcases min_choice init (f c) with hm | hm
      · exact Or.inl (by rw [hstep, h, hm])
      · exact Or.inr ⟨c, List.mem_cons_self c cs, by rw [hstep, h, hm]⟩
    · exact Or.inr ⟨x, List.mem_cons_of_mem c hx, by rw [hstep, he]⟩

/-- A left-to-right maximum over `f`-images is at least its seed. -/
theorem foldl_max_le_init {α β : Type} [LinearOrder β] (f : α → β)
    (l : List α) (init : β) :
    init ≤ l.foldl (fun acc x => max acc (f x)) init := by
  induction l generalizing init with
  | nil => simp
  | cons c cs ih => exact le_trans (le_max_left _ _) (ih (max init (f c)))

/-- The folded maximum dominates every image of a list member. -/
theorem foldl_max_le_mem {α β : Type} [LinearOrder β] (f : α → β)
    (l : List α) (init : β) (x : α) (hx : x ∈ l) :
    f x ≤ l.foldl (fun acc y => max acc (f y)) init := by
  induction l generalizing init with
  | nil => cases hx
  | cons c cs ih =>
    rcases List.mem_cons.mp hx with h | h
    · subst h
      exact le_trans (le_max_right _ _) (foldl_max_le_init f cs (max init (f x)))
    · exact ih (max init (f c)) h

/-- The canvas bounding box encloses every shape of the list. -/
theorem findCanvas_bounds (shapes : List GShape) (foo : GShape)
    (hfoo : foo ∈ shapes) :
    (findCanvas shapes).left ≤ foo.left ∧ (findCanvas shapes).top ≤ foo.top ∧
    foo.right ≤ (findCanvas shapes).right ∧
    foo.bottom ≤ (findCanvas shapes).bottom := by
  cases shapes with
  | nil => cases hfoo
  | cons x xs =>
    have hright : (findCanvas (x :: xs)).right
        = xs.foldl (fun acc s => max acc (s.left + s.width)) (x.left + x.width) := by
      simp only [findCanvas, GShape.right]
      ring
    have hbottom : (findCanvas (x :: xs)).bottom
        = xs.foldl (fun acc s => max acc (s.top + s.height)) (x.top + x.height) := by
      simp only [findCanvas, GShape.bottom]
      ring
    rcases List.mem_cons.mp hfoo with h | h
    · subst h
      refine ⟨?_, ?_, ?_, ?_⟩
      · apply foldl_min_le_init
      · apply foldl_min_le_init
      · rw [hright]
        apply foldl_max_le_init
      · rw [hbottom]
        apply foldl_max_le_init
    · refine ⟨?_, ?_, ?_, ?_⟩
      · apply foldl_min_le_mem
        exact h
      · apply foldl_min_le_mem
        exact h
      · rw [hright]
        apply foldl_max_le_mem
        exact h
      · rw [hbottom]
        apply foldl_max_le_mem
        exact h

/-- The directed gap of the claim: distance from the subject's edge to the
neighbor's facing edge, with no absolute value. -/
def dirGap (foo bar : GShape) : Dir → ℚ
  | .left => foo.left - bar.right
  | .right => bar.left - foo.right
  | .above => foo.top - bar.bottom
  | .below => bar.top - foo.bottom

/-- The directed raw distance of the claim from the subject's edge to the
corresponding canvas edge. -/
def canvasDist (foo canvas : GShape) : Dir → ℚ
  | .left => foo.left - canvas.left
  | .right => canvas.right - foo.right
  | .above => foo.top - canvas.top
  | .below => canvas.bottom - foo.bottom

/-- The neighbors qualifying for a direction: the other shapes, filtered by
the directional predicate. -/
def qualifying (shapes : List GShape) (idx : Nat) (foo : GShape) (d : Dir) :
    List GShape :=
  (shapes.eraseIdx idx).filter (fun s => decide (areRelated foo s d))

/-- `greater_margin` is the EMU conversion of the larger margin. -/
theorem greaterMargin_eq_emu_max (foo bar : GShape) :
    greaterMargin foo bar = emu (max foo.margin bar.margin) := by
  unfold greaterMargin
  by_cases h : foo.margin > bar.margin
  · rw [if_pos h, max_eq_left (le_of_lt h)]
  · rw [if_neg h, max_eq_right (le_of_not_lt h)]

/-- For a qualifying neighbor the absolute gap of the source equals the
directed gap of the claim, and the subtracted term is the larger margin in
length units. -/
theorem neighborBound_eq (foo bar : GShape) (d : Dir)
    (h : areRelated foo bar d) :
    neighborBound foo bar d
      = dirGap foo bar d - (emu (max foo.margin bar.margin) : ℚ) := by
  rw [neighborBound, greaterMargin_eq_emu_max]
  cases d with
  | left =>
    have h1 : bar.left + bar.width ≤ foo.left := h.1
    have h2 : 0 ≤ subjEdge foo Dir.left - facingEdge bar Dir.left := by
      simp [subjEdge, facingEdge, GShape.right]
      linarith
    rw [abs_of_nonneg h2]
    simp [subjEdge, facingEdge, dirGap]
  | right =>
    have h1 : foo.left + foo.width ≤ bar.left := h.1
    have h2 : subjEdge foo Dir.right - facingEdge bar Dir.right ≤ 0 := by
      simp [subjEdge, facingEdge, GShape.right]
      linarith
    rw [abs_of_nonpos h2]
    simp [subjEdge, facingEdge, dirGap, GShape.right]
  | above =>
    have h1 : bar.top + bar.height ≤ foo.top := h.1
    have h2 : 0 ≤ subjEdge foo Dir.above - facingEdge bar Dir.above := by
      simp [subjEdge, facingEdge, GShape.bottom]
      linarith
    rw [abs_of_nonneg h2]
    simp [subjEdge, facingEdge, dirGap]
  | below =>
    have h1 : foo.top + foo.height ≤ bar.top := h.1
    have h2 : subjEdge foo Dir.below - facingEdge bar Dir.below ≤ 0 := by
      simp [subjEdge, facingEdge, GShape.bottom]
      linarith
    rw [abs_of_nonpos h2]
    simp [subjEdge, facingEdge, dirGap, GShape.bottom]

/-- The absolute distance to the canvas edge equals the directed distance of
the claim and is non-negative, the subject being enclosed by the canvas. -/
theorem canvasDist_abs (shapes : List GShape) (foo : GShape) (d : Dir)
    (hfoo : foo ∈ shapes) :
    |subjEdge foo d - canvasEdge (findCanvas shapes) d|
        = canvasDist foo (findCanvas shapes) d ∧
      0 ≤ canvasDist foo (findCanvas shapes) d := by
  obtain ⟨hl, ht, hr, hb⟩ := findCanvas_bounds shapes foo hfoo
  cases d with
  | left =>
    have h2 : 0 ≤ subjEdge foo Dir.left - canvasEdge (findCanvas shapes) Dir.left := by
      simp [subjEdge, canvasEdge]; linarith
    refine ⟨by rw [abs_of_nonneg h2]; rfl, ?_⟩
    simpa [subjEdge, canvasEdge, canvasDist] using h2
  | right =>
    have h2 : subjEdge foo Dir.right - canvasEdge (findCanvas shapes) Dir.right ≤ 0 := by
      simp [subjEdge, canvasEdge]; linarith
    refine ⟨by rw [abs_of_nonpos h2]; simp [subjEdge, canvasEdge, canvasDist], ?_⟩
    simp only [canvasDist]
    simp only [subjEdge, canvasEdge] at h2
    linarith
  | above =>
    have h2 : 0 ≤ subjEdge foo Dir.above - canvasEdge (findCanvas shapes) Dir.above := by
      simp [subjEdge, canvasEdge]; linarith
    refine ⟨by rw [abs_of_nonneg h2]; rfl, ?_⟩
    simpa [subjEdge, canvasEdge, canvasDist] using h2
  | below =>
    have h2 : subjEdge foo Dir.below - canvasEdge (findCanvas shapes) Dir.below ≤ 0 := by
      simp [subjEdge, canvasEdge]; linarith
    refine ⟨by rw [abs_of_nonpos h2]; simp [subjEdge, canvasEdge, canvasDist], ?_⟩
    simp only [canvasDist]
    simp only [subjEdge, canvasEdge] at h2
    linarith

/-- C7: for every shape list, valid subject index and direction, when at
least one other shape qualifies the delta is the minimum over qualifying
neighbors of the directed gap minus the larger of the two margins (in length
units), negative values passed through; when none qualifies the delta is the
raw distance to the canvas edge, which is non-negative. -/
theorem expandSpec (shapes : List GShape) (idx : Nat) (d : Dir) (foo : GShape)
    (hfoo : shapes[idx]? = some foo) :
    (qualifying shapes idx foo d ≠ [] →
      ∃ v, expandDelta shapes idx d = some v ∧
        (∀ bar ∈ qualifying shapes idx foo d,
          v ≤ dirGap foo bar d - (emu (max foo.margin bar.margin) : ℚ)) ∧
        (∃ bar ∈ qualifying shapes idx foo d,
          v = dirGap foo bar d - (emu (max foo.margin bar.margin) : ℚ))) ∧
    (qualifying shapes idx foo d = [] →
      expandDelta shapes idx d = some (canvasDist foo (findCanvas shapes) d) ∧
      0 ≤ canvasDist foo (findCanvas shapes) d) := by
  have hmem : foo ∈ shapes := List.getElem?_mem hfoo
  have hd : expandDelta shapes idx d =
      (match qualifying shapes idx foo d with
       | [] => some |subjEdge foo d - canvasEdge (findCanvas shapes) d|
       | b :: bs =>
         some (bs.foldl (fun acc bar => min acc (neighborBound foo bar d))
           (neighborBound foo b d))) := by
    simp [expandDelta, hfoo, qualifying]
  constructor
  · intro hne
    cases hq : qualifying shapes idx foo d with
    | nil => exact absurd hq hne
    | cons b bs =>
      rw [hq] at hd
      refine ⟨bs.foldl (fun acc bar => min acc (neighborBound foo bar d))
        (neighborBound foo b d), hd, ?_, ?_⟩
      · intro bar hbar
        have hrel : areRelated foo bar d := by
          have hin : bar ∈ qualifying shapes idx foo d := hq ▸ hbar
          have := (List.mem_filter.mp hin).2
          exact of_decide_eq_true this
        rw [← neighborBound_eq foo bar d hrel]
        rcases List.mem_cons.mp hbar with h | h
        · subst h
          apply foldl_min_le_init
        · apply foldl_min_le_mem
          exact h
      · rcases foldl_min_eq_init_or_mem (fun x => neighborBound foo x d) bs
            (neighborBound foo b d) with h | ⟨x, hx, he⟩
        · refine ⟨b, List.mem_cons_self b bs, ?_⟩
          have hrel : areRelated foo b d := by
            have hin : b ∈ qualifying shapes idx foo d := by
              rw [hq]; exact List.mem_cons_self b bs
            exact of_decide_eq_true (List.mem_filter.mp hin).2
          rw [h, neighborBound_eq foo b d hrel]
        · refine ⟨x, List.mem_cons_of_mem b hx, ?_⟩
          have hrel : areRelated foo x d := by
            have hin : x ∈ qualifying shapes idx foo d := by
              rw [hq]; exact List.mem_cons_of_mem b hx
            exact of_decide_eq_true (List.mem_filter.mp hin).2
          rw [he, neighborBound_eq foo x d hrel]
  · intro hq
    rw [hq] at hd
    obtain ⟨habs, hpos⟩ := canvasDist_abs shapes foo d hmem
    exact ⟨by rw [hd, habs], hpos⟩

/-- C7 witness: a subject with one neighbor strictly to its right; some delta
exists that is bounded by and attained at a qualifying neighbor's gap minus
the larger margin. -/
theorem expandSpec_witness :
    ∃ v, expandDelta [⟨0, 0, 2, 2, 0⟩, ⟨5, 0, 2, 2, 0⟩] 0 Dir.right = some v ∧
      (∀ bar ∈ qualifying [⟨0, 0, 2, 2, 0⟩, ⟨5, 0, 2, 2, 0⟩] 0 ⟨0, 0, 2, 2, 0⟩ Dir.right,
        v ≤ dirGap ⟨0, 0, 2, 2, 0⟩ bar Dir.right
            - (emu (max (GShape.margin ⟨0, 0, 2, 2, 0⟩) bar.margin) : ℚ)) ∧
      (∃ bar ∈ qualifying [⟨0, 0, 2, 2, 0⟩, ⟨5, 0, 2, 2, 0⟩] 0 ⟨0, 0, 2, 2, 0⟩ Dir.right,
        v = dirGap ⟨0, 0, 2, 2, 0⟩ bar Dir.right
            - (emu (max (GShape.margin ⟨0, 0, 2, 2, 0⟩) bar.margin) : ℚ)) := by
  have hrel : areRelated ⟨0, 0, 2, 2, 0⟩ ⟨5, 0, 2, 2, 0⟩ Dir.right :=
    ⟨by norm_num, by norm_num [max_self, min_self]⟩
  have hq : qualifying [⟨0, 0, 2, 2, 0⟩, ⟨5, 0, 2, 2, 0⟩] 0 ⟨0, 0, 2, 2, 0⟩ Dir.right
      = [⟨5, 0, 2, 2, 0⟩] := by
    have he : ([⟨0, 0, 2, 2, 0⟩, ⟨5, 0, 2, 2, 0⟩] : List GShape).eraseIdx 0
        = [⟨5, 0, 2, 2, 0⟩] := rfl
    unfold qualifying
    rw [he, List.filter_cons]
    simp [decide_eq_true hrel]
  exact (expandSpec [⟨0, 0, 2, 2, 0⟩, ⟨5, 0, 2, 2, 0⟩] 0 Dir.right ⟨0, 0, 2, 2, 0⟩ rfl).1
    (by rw [hq]; exact List.cons_ne_nil _ _)

/-! ## Claim C5 -/

/-- A heading token that triggers `finalize_slide`: type `heading` with level
1 or 2. -/
def isHeading12 (t : Tok) : Prop :=
  t.ty = "heading" ∧ (t.attrs.level = some 1 ∨ t.attrs.level = some 2)

instance (t : Tok) : Decidable (isHeading12 t) :=
  inferInstanceAs (Decidable (_ ∧ (_ ∨ _)))

/-- A continuation break. -/
def isThematicBreak (t : Tok) : Prop :=
  t.ty = "thematic_break"

instance (t : Tok) : Decidable (isThematicBreak t) :=
  inferInstanceAs (Decidable (_ = _))

/-- The number of level-1/2 headings in a stream. -/
def countH12 (ts : List Tok) : Nat :=
  (ts.filter (fun t => decide (isHeading12 t))).length

/-- The number of thematic breaks in a stream. -/
def countTB (ts : List Tok) : Nat :=
  (ts.filter (fun t => decide (isThematicBreak t))).length

/-- Counting level-1/2 headings, token by token. -/
theorem countH12_cons (t : Tok) (ts : List Tok) :
    countH12 (t :: ts) = (if isHeading12 t then 1 else 0) + countH12 ts := by
  by_cases hp : isHeading12 t <;> simp [countH12, List.filter_cons, hp, Nat.add_comm]

/-- Counting thematic breaks, token by token. -/
theorem countTB_cons (t : Tok) (ts : List Tok) :
    countTB (t :: ts) = (if isThematicBreak t then 1 else 0) + countTB ts := by
  by_cases hp : isThematicBreak t <;> simp [countTB, List.filter_cons, hp, Nat.add_comm]

/-- Shape of a successful `finalize_slide`: the call counter advances by one
and the slide list grows by one fresh slide unless the document is being
finalized. -/
theorem finalizeSlide_shape (st : SegState) (fd : Bool) (st2 : SegState)
    (h : finalizeSlide st fd = some st2) :
    st2.finCount = st.finCount + 1 ∧
    st2.slides.length = st.slides.length + (if fd then 0 else 1) ∧
    st2.currentSlide = st.currentSlide + 1 ∧
    st2.currentPlaceholder = 0 ∧
    st2.prevConsume = st.prevConsume := by
  unfold finalizeSlide at h
  split at h
  · exact absurd h (by simp)
  · split at h
    · exact absurd h (by simp)
    · cases h
      cases fd <;> simp [List.length_set]

/-- Shape of a successful `add_placeholder`: counters and slide count are
unchanged; the placeholder cursor advances. -/
theorem addPlaceholder_shape (st st2 : SegState)
    (h : addPlaceholder st = some st2) :
    st2.finCount = st.finCount ∧ st2.slides.length = st.slides.length ∧
    st2.currentSlide = st.currentSlide ∧
    st2.prevConsume = st.prevConsume := by
  unfold addPlaceholder at h
  split at h
  · exact absurd h (by simp)
  · cases h
    simp [List.length_set]

/-- Shape of a successful append to the current placeholder: counters, slide
count and cursors are unchanged; the previous-token memo becomes the appended
consume tag. -/
theorem appendToCurrent_shape (st st2 : SegState) (v : CVal) (c : Consume)
    (h : appendToCurrent st v c = some st2) :
    st2.finCount = st.finCount ∧ st2.slides.length = st.slides.length ∧
    st2.currentSlide = st.currentSlide ∧
    st2.currentPlaceholder = st.currentPlaceholder ∧
    st2.prevConsume = some c := by
  unfold appendToCurrent at h
  split at h
  · exact absurd h (by simp)
  · split at h
    · exact absurd h (by simp)
    · cases h
      simp [List.length_set]

/-- Shape of a successful `add_token`: the finalize counter, slide count and
slide cursor are unchanged. -/
theorem addToken_shape (st st2 : SegState) (v : CVal) (c : Consume)
    (h : addToken st v c = some st2) :
    st2.finCount = st.finCount ∧ st2.slides.length = st.slides.length ∧
    st2.currentSlide = st.currentSlide := by
  unfold addToken at h
  split at h
  · exact absurd h (by simp)
  · split at h
    · exact absurd h (by simp)
    · split at h
      · obtain ⟨h1, h2, h3, _, _⟩ := appendToCurrent_shape st st2 v c h
        exact ⟨h1, h2, h3⟩
      · split at h
        · exact absurd h (by simp)
        · next st1 ha =>
          obtain ⟨h1, h2, h3, _, _⟩ := appendToCurrent_shape st1 st2 v c h
          obtain ⟨g1, g2, g3, _⟩ := addPlaceholder_shape st st1 ha
          exact ⟨h1.trans g1, h2.trans g2, h3.trans g3⟩

/-- Shape of a successful `setTitle`: counters and slide count unchanged. -/
theorem setTitle_shape (st st2 : SegState) (title : Option (List Run))
    (h : setTitle st title = some st2) :
    st2.finCount = st.finCount ∧ st2.slides.length = st.slides.length ∧
    st2.currentSlide = st.currentSlide ∧
    st2.currentPlaceholder = st.currentPlaceholder ∧
    st2.prevConsume = st.prevConsume := by
  unfold setTitle at h
  split at h
  · exact absurd h (by simp)
  · cases h
    simp [List.length_set]

/-- Per-token effect on the finalize counter and the slide count: a level-1/2
heading or a thematic break adds one to both; every other token leaves both
unchanged. -/
theorem stepToken_counts (st : SegState) (t : Tok) (st2 : SegState)
    (h : stepToken st t = some st2) :
    st2.finCount = st.finCount + (if isHeading12 t then 1 else 0)
        + (if isThematicBreak t then 1 else 0) ∧
    st2.slides.length = st.slides.length + (if isHeading12 t then 1 else 0)
        + (if isThematicBreak t then 1 else 0) := by
  unfold stepToken at h
  split at h
  case h_1 x heq =>
    split at h
    case h_1 => exact Option.noConfusion h
    case h_2 level hlev =>
      split at h
      case h_1 hl1 =>
        split at h
        case h_1 => exact Option.noConfusion h
        case h_2 st1 hfin =>
          obtain ⟨f1, f2, f3, f4, f5⟩ := finalizeSlide_shape st false st1 hfin
          obtain ⟨g1, g2, g3, g4, g5⟩ := setTitle_shape st1 st2 _ h
          constructor <;> simp_all +decide [isHeading12, isThematicBreak] <;> omega
      case h_2 hl2 =>
        split at h
        case h_1 => exact Option.noConfusion h
        case h_2 st1 hfin =>
          obtain ⟨f1, f2, f3, f4, f5⟩ := finalizeSlide_shape st false st1 hfin
          obtain ⟨g1, g2, g3, g4, g5⟩ := setTitle_shape st1 st2 _ h
          constructor <;> simp_all +decide [isHeading12, isThematicBreak] <;> omega
      case h_3 hl3 =>
        obtain ⟨c1, c2, c3⟩ := addToken_shape _ _ _ _ h
        constructor <;> simp_all +decide [isHeading12, isThematicBreak] <;> omega
      case h_4 hl4 =>
        obtain ⟨c1, c2, c3⟩ := addToken_shape _ _ _ _ h
        constructor <;> simp_all +decide [isHeading12, isThematicBreak] <;> omega
      case h_5 hl5 =>
        obtain ⟨c1, c2, c3⟩ := addToken_shape _ _ _ _ h
        constructor <;> simp_all +decide [isHeading12, isThematicBreak] <;> omega
      case h_6 hl6 =>
        obtain ⟨c1, c2, c3⟩ := addToken_shape _ _ _ _ h
        constructor <;> simp_all +decide [isHeading12, isThematicBreak] <;> omega
      case h_7 n1 n2 n3 n4 n5 n6 =>
        injection h with h
        subst h
        have hn : ¬ isHeading12 t := by
          rintro ⟨-, h2 | h2⟩
          · rw [hlev] at h2; injection h2 with h2; exact n1 h2
          · rw [hlev] at h2; injection h2 with h2; exact n2 h2
        have htb : ¬ isThematicBreak t := by
          intro hh; rw [isThematicBreak, heq] at hh; exact absurd hh (by decide)
        rw [if_neg hn, if_neg htb]
        constructor <;> omega
  case h_2 x heq =>
    split at h
    case h_1 => exact Option.noConfusion h
    case h_2 st1 hfin =>
      split at h
      case h_1 => exact Option.noConfusion h
      case h_2 sPrev hprev =>
        obtain ⟨f1, f2, f3, f4, f5⟩ := finalizeSlide_shape st false st1 hfin
        obtain ⟨g1, g2, g3, g4, g5⟩ := setTitle_shape st1 st2 _ h
        constructor <;> simp_all +decide [isHeading12, isThematicBreak] <;> omega
  case h_3 x heq =>
    obtain ⟨c1, c2, c3, c4⟩ := addPlaceholder_shape _ _ h
    constructor <;> simp_all +decide [isHeading12, isThematicBreak] <;> omega
  case h_4 x heq =>
    split at h
    case h_1 => exact Option.noConfusion h
    case h_2 c0 hc0 =>
      obtain ⟨c1, c2, c3⟩ := addToken_shape _ _ _ _ h
      constructor <;> simp_all +decide [isHeading12, isThematicBreak] <;> omega
  case h_5 x heq =>
    split at h
    case h_1 => exact Option.noConfusion h
    case h_2 child hchild =>
      split at h
      case h_1 x2 heqc =>
        split at h
        case h_1 => exact Option.noConfusion h
        case h_2 raw hraw =>
          split at h
          · obtain ⟨c1, c2, c3⟩ := addToken_shape _ _ _ _ h
            constructor <;> simp_all +decide [isHeading12, isThematicBreak] <;> omega
          · injection h with h
            subst h
            constructor <;> simp_all +decide [isHeading12, isThematicBreak] <;> omega
      case h_2 x2 heqc =>
        obtain ⟨c1, c2, c3⟩ := addToken_shape _ _ _ _ h
        constructor <;> simp_all +decide [isHeading12, isThematicBreak] <;> omega
      case h_3 x2 heqc =>
        split at h
        case h_1 => exact Option.noConfusion h
        case h_2 urlO hurl =>
          split at h
          case h_1 => exact Option.noConfusion h
          case h_2 a0 ha0 =>
            split at h
            case h_1 => exact Option.noConfusion h
            case h_2 alt halt =>
              obtain ⟨c1, c2, c3⟩ := addToken_shape _ _ _ _ h
              constructor <;> simp_all +decide [isHeading12, isThematicBreak] <;> omega
      case h_4 x2 n1 n2 n3 =>
        injection h with h
        subst h
        constructor <;> simp_all +decide [isHeading12, isThematicBreak] <;> omega
  case h_6 x heq =>
    obtain ⟨c1, c2, c3⟩ := addToken_shape _ _ _ _ h
    constructor <;> simp_all +decide [isHeading12, isThematicBreak] <;> omega
  case h_7 x heq =>
    split at h
    case h_1 => exact Option.noConfusion h
    case h_2 raw hraw =>
      obtain ⟨c1, c2, c3⟩ := addToken_shape _ _ _ _ h
      constructor <;> simp_all +decide [isHeading12, isThematicBreak] <;> omega
  case h_8 x heq =>
    split at h
    case h_1 => exact Option.noConfusion h
    case h_2 k hk =>
      split at h
      case h_1 => exact Option.noConfusion h
      case h_2 v hv =>
        split at h
        case h_1 x2 heqk =>
          split at h
          case h_1 => exact Option.noConfusion h
          case h_2 sl hsl =>
            injection h with h
            subst h
            constructor <;>
              simp_all +decide [isHeading12, isThematicBreak, List.length_set] <;>
              omega
        case h_2 x2 heqk =>
          split at h
          case h_1 => exact Option.noConfusion h
          case h_2 sl hsl =>
            injection h with h
            subst h
            constructor <;>
              simp_all +decide [isHeading12, isThematicBreak, List.length_set] <;>
              omega
        case h_3 x2 n1 n2 =>
          injection h with h
          subst h
          constructor <;> simp_all +decide [isHeading12, isThematicBreak] <;> omega
  case h_9 x heq =>
    injection h with h
    subst h
    constructor <;> simp_all +decide [isHeading12, isThematicBreak] <;> omega
  case h_10 x heq =>
    split at h
    case h_1 => exact Option.noConfusion h
    case h_2 hb htab =>
      obtain ⟨c1, c2, c3⟩ := addToken_shape _ _ _ _ h
      constructor <;> simp_all +decide [isHeading12, isThematicBreak] <;> omega
  case h_11 x n1 n2 n3 n4 n5 n6 n7 n8 n9 n10 =>
    injection h with h
    subst h
    have hn : ¬ isHeading12 t := fun hh => n1 hh.1
    have htb : ¬ isThematicBreak t := n2
    rw [if_neg hn, if_neg htb]
    constructor <;> omega

/-- Accumulated effect of the token loop on the finalize counter and slide
count. -/
theorem runTokens_counts (ts : List Tok) :
    ∀ st st2 : SegState, runTokens st ts = some st2 →
      st2.finCount = st.finCount + countH12 ts + countTB ts ∧
      st2.slides.length = st.slides.length + countH12 ts + countTB ts := by
  induction ts with
  | nil =>
    intro st st2 h
    unfold runTokens at h
    injection h with h
    subst h
    simp [countH12, countTB]
  | cons t ts ih =>
    intro st st2 h
    unfold runTokens at h
    split at h
    case h_1 => exact Option.noConfusion h
    case h_2 st1 hstep =>
      obtain ⟨c1, c2⟩ := stepToken_counts st t st1 hstep
      obtain ⟨d1, d2⟩ := ih st1 st2 h
      rw [countH12_cons, countTB_cons]
      by_cases h12 : isHeading12 t <;> by_cases htb : isThematicBreak t <;>
        simp only [h12, htb, if_true, if_false] at c1 c2 ⊢ <;> omega

/-- C5: for every token stream the segmenter completes on, `finalize_slide`
runs exactly once more than the number of level-1/2 headings plus thematic
breaks, and the slide list before empty-slide pruning holds exactly that many
plus one slides. -/
theorem finalizeCallCount (tokens : List Tok) (st : SegState)
    (h : runSegmenter tokens = some st) :
    st.finCount = countH12 tokens + countTB tokens + 1 ∧
    st.slides.length = countH12 tokens + countTB tokens + 1 := by
  unfold runSegmenter at h
  split at h
  case h_1 => exact Option.noConfusion h
  case h_2 st1 hrun =>
    obtain ⟨d1, d2⟩ := runTokens_counts tokens initState st1 hrun
    obtain ⟨f1, f2, f3, f4, f5⟩ := finalizeSlide_shape st1 true st h
    simp only [initState] at d1 d2
    simp only [List.length_cons, List.length_nil] at d2
    simp only [if_true] at f2
    constructor <;> omega

/-- C5 witness: two level-1 headings and one paragraph give exactly three
finalize calls and three slides before pruning. -/
theorem finalizeCallCount_witness :
    SegState.finCount
        ⟨[⟨none, "section_header", [[]], []⟩,
          ⟨some [⟨false, false, false, none, "A"⟩], "title_and_content",
           [[⟨CVal.paragraph [⟨false, false, false, none, "x"⟩], Consume.shared⟩]],
           []⟩,
          ⟨some [⟨false, false, false, none, "B"⟩], "section_header", [[]], []⟩],
         3, 0, some Consume.shared, 3⟩
      = countH12 [h1Tok "A", paraTok "x", h1Tok "B"]
        + countTB [h1Tok "A", paraTok "x", h1Tok "B"] + 1 ∧
    (SegState.slides
        ⟨[⟨none, "section_header", [[]], []⟩,
          ⟨some [⟨false, false, false, none, "A"⟩], "title_and_content",
           [[⟨CVal.paragraph [⟨false, false, false, none, "x"⟩], Consume.shared⟩]],
           []⟩,
          ⟨some [⟨false, false, false, none, "B"⟩], "section_header", [[]], []⟩],
         3, 0, some Consume.shared, 3⟩).length
      = countH12 [h1Tok "A", paraTok "x", h1Tok "B"]
        + countTB [h1Tok "A", paraTok "x", h1Tok "B"] + 1 :=
  finalizeCallCount [h1Tok "A", paraTok "x", h1Tok "B"] _ rfl

/-! ## Claim C1 -/

/-- Working form of the consume-sequencing invariant for one placeholder: a
placeholder holds at most one token, or only `shared` tokens. -/
def phOK (p : List CTok) : Prop :=
  p.length ≤ 1 ∨ ∀ c ∈ p, c.consume = Consume.shared

/-- Well-formedness of the segmenter state, maintained throughout the token
loop: the slide cursor points at the last slide, the placeholder cursor at
its last placeholder, every placeholder satisfies `phOK`, and the
previous-token memo matches the last token of the current placeholder. -/
structure SegWF (st : SegState) : Prop where
  csLast : st.currentSlide + 1 = st.slides.length
  cpLast : ∀ s, st.slides[st.currentSlide]? = some s →
    st.currentPlaceholder + 1 = s.placeholders.length
  allOK : ∀ s ∈ st.slides, ∀ p ∈ s.placeholders, phOK p
  prevMatch : ∀ s p c, st.slides[st.currentSlide]? = some s →
    s.placeholders[st.currentPlaceholder]? = some p →
    p.getLast? = some c → st.prevConsume = some c.consume

/-- The initial segmenter state is well-formed. -/
theorem segWF_init : SegWF initState := by
  constructor
  · rfl
  · intro s h
    injection h with h
    rw [← h]
    rfl
  · intro s hs p hp
    rw [show initState.slides = [newSlide] from rfl, List.mem_singleton] at hs
    subst hs
    rw [show newSlide.placeholders = [[]] from rfl, List.mem_singleton] at hp
    subst hp
    exact Or.inl (by simp)
  · intro s p c hsl hp hc
    have hs2 : s = newSlide := by
      injection hsl with h2
      exact h2.symm
    subst hs2
    have hp2 : p = [] := by
      injection hp with h2
      exact h2.symm
    subst hp2
    exact Option.noConfusion hc

/-- `phOK` yields the claim's two consume-sequencing properties: every token
after the first is `shared` with a `shared` predecessor, and a `monopoly`
token is the sole entry. -/
theorem phOK_spec (p : List CTok) (hp : phOK p) :
    (∀ i a b, p[i]? = some a → p[i + 1]? = some b →
      b.consume = Consume.shared ∧ a.consume = Consume.shared) ∧
    (∀ c ∈ p, c.consume = Consume.monopoly → p = [c]) := by
  rcases hp with hlen | hall
  · constructor
    · intro i a b _ hb
      obtain ⟨h2, -⟩ := List.getElem?_eq_some.mp hb
      omega
    · intro c hc _
      cases p with
      | nil => cases hc
      | cons x xs =>
        cases xs with
        | nil =>
          rcases List.mem_cons.mp hc with h | h
          · rw [h]
          · cases h
        | cons y ys => simp at hlen
  · constructor
    · intro i a b ha hb
      exact ⟨hall b (List.getElem?_mem hb), hall a (List.getElem?_mem ha)⟩
    · intro c hc hm
      rw [hall c hc] at hm
      cases hm

/-- `removeFirst` only drops elements. -/
theorem removeFirst_subset [DecidableEq α] (l : List α) (a : α) :
    ∀ x ∈ removeFirst l a, x ∈ l := by
  induction l with
  | nil => simp [removeFirst]
  | cons y ys ih =>
    intro x hx
    unfold removeFirst at hx
    split at hx
    · exact List.mem_cons_of_mem y hx
    · rcases List.mem_cons.mp hx with h | h
      · exact h ▸ List.mem_cons_self y ys
      · exact List.mem_cons_of_mem y (ih x h)

/-- Every slide surviving the pruning loop came from the input list. -/
theorem pruneGo_subset (fuel : Nat) :
    ∀ (l : List Slide) (i : Nat), ∀ s ∈ pruneGo fuel l i, s ∈ l := by
  induction fuel with
  | zero =>
    intro l i s hs
    simpa [pruneGo] using hs
  | succ fuel ih =>
    intro l i s hs
    unfold pruneGo at hs
    split at hs
    · rename_i hlt
      have h2 := ih _ _ s hs
      split at h2
      · exact removeFirst_subset _ _ s h2
      · exact h2
    · exact hs

/-- Replacing the current slide by one with the same placeholders (a title,
layout or notes update) preserves well-formedness. -/
theorem segWF_set_preserve (st : SegState) (s s2 : Slide)
    (hs : st.slides[st.currentSlide]? = some s)
    (hpl : s2.placeholders = s.placeholders)
    (wf : SegWF st) :
    SegWF { st with slides := st.slides.set st.currentSlide s2 } := by
  have hcs : st.currentSlide < st.slides.length := by
    have := wf.csLast
    omega
  have hget : (st.slides.set st.currentSlide s2)[st.currentSlide]? = some s2 :=
    List.getElem?_set_self hcs
  constructor
  · simp [List.length_set, wf.csLast]
  · intro s3 h3
    rw [hget] at h3
    injection h3 with h3
    rw [← h3, hpl]
    exact wf.cpLast s hs
  · intro s3 h3 p hp
    rcases List.mem_or_eq_of_mem_set h3 with h | h
    · exact wf.allOK s3 h p hp
    · subst h
      rw [hpl] at hp
      exact wf.allOK s (List.getElem?_mem hs) p hp
  · intro s3 p c h3 hp hc
    rw [hget] at h3
    injection h3 with h3
    rw [← h3, hpl] at hp
    exact wf.prevMatch s p c hs hp hc

/-- Explicit result of a successful `add_placeholder`. -/
theorem addPlaceholder_eq (st : SegState) (s : Slide)
    (hs : st.slides[st.currentSlide]? = some s) :
    addPlaceholder st = some { st with
      slides := st.slides.set st.currentSlide
        { s with placeholders := s.placeholders ++ [[]] },
      currentPlaceholder := st.currentPlaceholder + 1 } := by
  unfold addPlaceholder
  rw [hs]

/-- Explicit result of a successful append to the current placeholder. -/
theorem appendToCurrent_eq (st : SegState) (s : Slide) (ph : List CTok)
    (v : CVal) (c : Consume)
    (hs : st.slides[st.currentSlide]? = some s)
    (hp : s.placeholders[st.currentPlaceholder]? = some ph) :
    appendToCurrent st v c = some { st with
      slides := st.slides.set st.currentSlide
        { s with placeholders :=
            s.placeholders.set st.currentPlaceholder (ph ++ [⟨v, c⟩]) },
      prevConsume := some c } := by
  unfold appendToCurrent
  rw [hs]
  simp only [hp]

/-- `add_placeholder` preserves well-formedness; the new current placeholder
is empty. -/
theorem segWF_addPlaceholder (st st2 : SegState)
    (h : addPlaceholder st = some st2) (wf : SegWF st) : SegWF st2 := by
  unfold addPlaceholder at h
  split at h
  case h_1 => exact Option.noConfusion h
  case h_2 s hs =>
    injection h with h
    subst h
    have hcs : st.currentSlide < st.slides.length := by
      have := wf.csLast
      omega
    have hget : (st.slides.set st.currentSlide
        { s with placeholders := s.placeholders ++ [[]] })[st.currentSlide]?
        = some { s with placeholders := s.placeholders ++ [[]] } :=
      List.getElem?_set_self hcs
    constructor
    · simp [List.length_set, wf.csLast]
    · intro s3 h3
      rw [hget] at h3
      injection h3 with h3
      rw [← h3]
      simp only [List.length_append, List.length_cons, List.length_nil]
      have := wf.cpLast s hs
      omega
    · intro s3 h3 p hp
      rcases List.mem_or_eq_of_mem_set h3 with h4 | h4
      · exact wf.allOK s3 h4 p hp
      · subst h4
        rcases List.mem_append.mp hp with h5 | h5
        · exact wf.allOK s (List.getElem?_mem hs) p h5
        · rw [List.mem_singleton] at h5
          subst h5
          exact Or.inl (by simp)
    · intro s3 p c h3 hp hc
      rw [hget] at h3
      injection h3 with h3
      rw [← h3] at hp
      have hlen : st.currentPlaceholder + 1 = s.placeholders.length :=
        wf.cpLast s hs
      have hp2 : (s.placeholders ++ [[]])[st.currentPlaceholder + 1]?
          = some [] := by
        have : s.placeholders.length = st.currentPlaceholder + 1 := hlen.symm
        rw [show st.currentPlaceholder + 1 = s.placeholders.length from hlen]
        exact List.getElem?_concat_length s.placeholders []
      rw [hp2] at hp
      injection hp with hp
      rw [← hp] at hc
      exact Option.noConfusion hc

/-- Appending a token to the current placeholder preserves well-formedness,
provided the extended placeholder stays `phOK`. -/
theorem segWF_appendToCurrent (st st2 : SegState) (v : CVal) (c : Consume)
    (s : Slide) (ph : List CTok)
    (hs : st.slides[st.currentSlide]? = some s)
    (hp : s.placeholders[st.currentPlaceholder]? = some ph)
    (h : appendToCurrent st v c = some st2)
    (wf : SegWF st)
    (hok : phOK (ph ++ [⟨v, c⟩])) : SegWF st2 := by
  rw [appendToCurrent_eq st s ph v c hs hp] at h
  injection h with h
  rw [← h]
  have hcs : st.currentSlide < st.slides.length := by
    have := wf.csLast
    omega
  have hcp : st.currentPlaceholder + 1 = s.placeholders.length := wf.cpLast s hs
  have hcplt : st.currentPlaceholder < s.placeholders.length := by omega
  constructor
  · simp [List.length_set, wf.csLast]
  · intro s3 h3
    rw [List.getElem?_set_self hcs] at h3
    injection h3 with h3
    rw [← h3]
    simp only [List.length_set]
    exact hcp
  · intro s3 h3 p hp3
    rcases List.mem_or_eq_of_mem_set h3 with h4 | h4
    · exact wf.allOK s3 h4 p hp3
    · subst h4
      rcases List.mem_or_eq_of_mem_set hp3 with h5 | h5
      · exact wf.allOK s (List.getElem?_mem hs) p h5
      · subst h5
        exact hok
  · intro s3 p cl h3 hp3 hcl
    rw [List.getElem?_set_self hcs] at h3
    injection h3 with h3
    rw [← h3] at hp3
    simp only at hp3
    rw [List.getElem?_set_self hcplt] at hp3
    injection hp3 with hp3
    rw [← hp3] at hcl
    rw [List.getLast?_concat] at hcl
    injection hcl with hcl
    rw [← hcl]

/-- `add_token` preserves well-formedness. -/
theorem segWF_addToken (st st2 : SegState) (v : CVal) (c : Consume)
    (h : addToken st v c = some st2) (wf : SegWF st) : SegWF st2 := by
  unfold addToken at h
  split at h
  case h_1 => exact Option.noConfusion h
  case h_2 s hs =>
    split at h
    case h_1 => exact Option.noConfusion h
    case h_2 ph hp =>
      split at h
      · rename_i hc
        have hok : phOK (ph ++ [⟨v, c⟩]) := by
          by_cases hemp : ph = []
          · subst hemp
            exact Or.inl (by simp)
          · have hc2 : st.prevConsume = some Consume.shared ∧ c = Consume.shared := by
              rcases hc with h1 | h1
              · exact absurd (List.isEmpty_iff.mp h1) hemp
              · exact h1
            obtain ⟨cl, hcl⟩ :=
              Option.isSome_iff_exists.mp (List.getLast?_isSome.mpr hemp)
            have hprev := wf.prevMatch s ph cl hs hp hcl
            have hclsh : cl.consume = Consume.shared := by
              have h3 := hprev.symm.trans hc2.1
              injection h3 with h3
            have hallsh : ∀ x ∈ ph, x.consume = Consume.shared := by
              rcases wf.allOK s (List.getElem?_mem hs) ph (List.getElem?_mem hp)
                  with hl | ha
              · intro x hx
                cases ph with
                | nil => cases hx
                | cons p0 ps =>
                  cases ps with
                  | nil =>
                    rw [List.mem_singleton] at hx
                    subst hx
                    have hc0 : cl = x := by
                      rw [show ([x] : List CTok).getLast? = some x from rfl] at hcl
                      injection hcl with h4
                      exact h4.symm
                    rw [← hc0]
                    exact hclsh
                  | cons p1 ps2 => simp at hl
              · exact ha
            refine Or.inr ?_
            intro x hx
            rcases List.mem_append.mp hx with h5 | h5
            · exact hallsh x h5
            · rw [List.mem_singleton] at h5
              subst h5
              exact hc2.2
        exact segWF_appendToCurrent st st2 v c s ph hs hp h wf hok
      · rename_i hc
        split at h
        case h_1 => exact Option.noConfusion h
        case h_2 st1 ha =>
          have wf1 := segWF_addPlaceholder st st1 ha wf
          rw [addPlaceholder_eq st s hs] at ha
          injection ha with ha
          have hcs : st.currentSlide < st.slides.length := by
            have := wf.csLast
            omega
          have hcp : st.currentPlaceholder + 1 = s.placeholders.length :=
            wf.cpLast s hs
          have hs1 : st1.slides[st1.currentSlide]?
              = some { s with placeholders := s.placeholders ++ [[]] } := by
            rw [← ha]
            exact List.getElem?_set_self hcs
          have hp1 : (Slide.placeholders
                { s with placeholders := s.placeholders ++ [[]] })[st1.currentPlaceholder]?
              = some [] := by
            rw [← ha]
            simp only
            rw [hcp]
            exact List.getElem?_concat_length s.placeholders []
          have hok : phOK (([] : List CTok) ++ [⟨v, c⟩]) := Or.inl (by simp)
          exact segWF_appendToCurrent st1 st2 v c _ [] hs1 hp1 h wf1 hok

/-- `finalize_slide(False)` preserves well-formedness: the fresh slide
becomes the current one, with a single empty placeholder. -/
theorem segWF_finalize_false (st st2 : SegState)
    (h : finalizeSlide st false = some st2) (wf : SegWF st) : SegWF st2 := by
  unfold finalizeSlide at h
  split at h
  case h_1 => exact Option.noConfusion h
  case h_2 s hs =>
    split at h
    case h_1 => exact Option.noConfusion h
    case h_2 lay hlay =>
      injection h with h
      rw [← h]
      have hcs : st.currentSlide < st.slides.length := by
        have := wf.csLast
        omega
      have hlen1 : (st.slides.set st.currentSlide { s with layout := lay }).length
          = st.slides.length := List.length_set st.slides st.currentSlide _
      have hget : ((st.slides.set st.currentSlide { s with layout := lay })
            ++ [newSlide])[st.currentSlide + 1]? = some newSlide := by
        rw [show st.currentSlide + 1
            = (st.slides.set st.currentSlide { s with layout := lay }).length by
          rw [hlen1]; exact wf.csLast]
        exact List.getElem?_concat_length _ newSlide
      constructor
      · simp only [Bool.false_eq_true, if_false, List.length_append, hlen1,
          List.length_cons, List.length_nil]
        have := wf.csLast
        omega
      · intro s3 h3
        simp only [Bool.false_eq_true, if_false] at h3
        rw [hget] at h3
        injection h3 with h3
        rw [← h3]
        rfl
      · intro s3 h3 p hp
        simp only [Bool.false_eq_true, if_false] at h3
        rcases List.mem_append.mp h3 with h4 | h4
        · rcases List.mem_or_eq_of_mem_set h4 with h5 | h5
          · exact wf.allOK s3 h5 p hp
          · subst h5
            exact wf.allOK s (List.getElem?_mem hs) p hp
        · rw [List.mem_singleton] at h4
          subst h4
          rw [show newSlide.placeholders = [[]] from rfl, List.mem_singleton] at hp
          subst hp
          exact Or.inl (by simp)
      · intro s3 p c h3 hp hc
        simp only [Bool.false_eq_true, if_false] at h3
        rw [hget] at h3
        injection h3 with h3
        rw [← h3] at hp
        have hp2 : p = [] := by
          injection hp with h4
          exact h4.symm
        subst hp2
        exact Option.noConfusion hc

/-- Any `finalize_slide` keeps every placeholder `phOK`: it only sets a
layout and possibly appends a fresh slide with one empty placeholder. -/
theorem finalize_allOK (st st2 : SegState) (fd : Bool)
    (h : finalizeSlide st fd = some st2)
    (hall : ∀ s ∈ st.slides, ∀ p ∈ s.placeholders, phOK p) :
    ∀ s ∈ st2.slides, ∀ p ∈ s.placeholders, phOK p := by
  unfold finalizeSlide at h
  split at h
  case h_1 => exact Option.noConfusion h
  case h_2 s hs =>
    split at h
    case h_1 => exact Option.noConfusion h
    case h_2 lay hlay =>
      injection h with h
      rw [← h]
      intro s3 h3 p hp
      have hset : s3 ∈ st.slides.set st.currentSlide { s with layout := lay }
          → phOK p := by
        intro h4
        rcases List.mem_or_eq_of_mem_set h4 with h5 | h5
        · exact hall s3 h5 p hp
        · subst h5
          exact hall s (List.getElem?_mem hs) p hp
      simp only at h3
      split at h3
      · exact hset h3
      · rcases List.mem_append.mp h3 with h4 | h4
        · exact hset h4
        · rw [List.mem_singleton] at h4
          subst h4
          rw [show newSlide.placeholders = [[]] from rfl, List.mem_singleton] at hp
          subst hp
          exact Or.inl (by simp)

/-- `setTitle` preserves well-formedness. -/
theorem segWF_setTitle (st st2 : SegState) (title : Option (List Run))
    (h : setTitle st title = some st2) (wf : SegWF st) : SegWF st2 := by
  unfold setTitle at h
  split at h
  case h_1 => exact Option.noConfusion h
  case h_2 s hs =>
    injection h with h
    rw [← h]
    exact segWF_set_preserve st s _ hs rfl wf

/-- One dispatch step preserves well-formedness. -/
theorem segWF_step (st : SegState) (t : Tok) (st2 : SegState)
    (h : stepToken st t = some st2) (wf : SegWF st) : SegWF st2 := by
  unfold stepToken at h
  split at h
  case h_1 x heq =>
    split at h
    case h_1 => exact Option.noConfusion h
    case h_2 level hlev =>
      split at h
      case h_1 hl1 =>
        split at h
        case h_1 => exact Option.noConfusion h
        case h_2 st1 hfin =>
          exact segWF_setTitle st1 st2 _ h (segWF_finalize_false st st1 hfin wf)
      case h_2 hl2 =>
        split at h
        case h_1 => exact Option.noConfusion h
        case h_2 st1 hfin =>
          exact segWF_setTitle st1 st2 _ h (segWF_finalize_false st st1 hfin wf)
      case h_3 hl3 => exact segWF_addToken st st2 _ _ h wf
      case h_4 hl4 => exact segWF_addToken st st2 _ _ h wf
      case h_5 hl5 => exact segWF_addToken st st2 _ _ h wf
      case h_6 hl6 => exact segWF_addToken st st2 _ _ h wf
      case h_7 n1 n2 n3 n4 n5 n6 =>
        injection h with h
        rw [← h]
        exact wf
  case h_2 x heq =>
    split at h
    case h_1 => exact Option.noConfusion h
    case h_2 st1 hfin =>
      split at h
      case h_1 => exact Option.noConfusion h
      case h_2 sPrev hprev =>
        exact segWF_setTitle st1 st2 _ h (segWF_finalize_false st st1 hfin wf)
  case h_3 x heq => exact segWF_addPlaceholder st st2 h wf
  case h_4 x heq =>
    split at h
    case h_1 => exact Option.noConfusion h
    case h_2 c0 hc0 => exact segWF_addToken st st2 _ _ h wf
  case h_5 x heq =>
    split at h
    case h_1 => exact Option.noConfusion h
    case h_2 child hchild =>
      split at h
      case h_1 x2 heqc =>
        split at h
        case h_1 => exact Option.noConfusion h
        case h_2 raw hraw =>
          split at h
          · exact segWF_addToken st st2 _ _ h wf
          · injection h with h
            rw [← h]
            exact wf
      case h_2 x2 heqc => exact segWF_addToken st st2 _ _ h wf
      case h_3 x2 heqc =>
        split at h
        case h_1 => exact Option.noConfusion h
        case h_2 urlO hurl =>
          split at h
          case h_1 => exact Option.noConfusion h
          case h_2 a0 ha0 =>
            split at h
            case h_1 => exact Option.noConfusion h
            case h_2 alt halt => exact segWF_addToken st st2 _ _ h wf
      case h_4 x2 n1 n2 n3 =>
        injection h with h
        rw [← h]
        exact wf
  case h_6 x heq => exact segWF_addToken st st2 _ _ h wf
  case h_7 x heq =>
    split at h
    case h_1 => exact Option.noConfusion h
    case h_2 raw hraw => exact segWF_addToken st st2 _ _ h wf
  case h_8 x heq =>
    split at h
    case h_1 => exact Option.noConfusion h
    case h_2 k hk =>
      split at h
      case h_1 => exact Option.noConfusion h
      case h_2 v hv =>
        split at h
        case h_1 x2 heqk =>
          split at h
          case h_1 => exact Option.noConfusion h
          case h_2 sl hsl =>
            injection h with h
            rw [← h]
            exact segWF_set_preserve st sl _ hsl rfl wf
        case h_2 x2 heqk =>
          split at h
          case h_1 => exact Option.noConfusion h
          case h_2 sl hsl =>
            injection h with h
            rw [← h]
            exact segWF_set_preserve st sl _ hsl rfl wf
        case h_3 x2 n1 n2 =>
          injection h with h
          rw [← h]
          exact wf
  case h_9 x heq =>
    injection h with h
    rw [← h]
    exact wf
  case h_10 x heq =>
    split at h
    case h_1 => exact Option.noConfusion h
    case h_2 hb htab => exact segWF_addToken st st2 _ _ h wf
  case h_11 x n1 n2 n3 n4 n5 n6 n7 n8 n9 n10 =>
    injection h with h
    rw [← h]
    exact wf

/-- The token loop preserves well-formedness. -/
theorem runTokens_wf (ts : List Tok) :
    ∀ st st2 : SegState, runTokens st ts = some st2 → SegWF st → SegWF st2 := by
  induction ts with
  | nil =>
    intro st st2 h wf
    unfold runTokens at h
    injection h with h
    rw [← h]
    exact wf
  | cons t ts ih =>
    intro st st2 h wf
    unfold runTokens at h
    split at h
    case h_1 => exact Option.noConfusion h
    case h_2 st1 hstep => exact ih st1 st2 h (segWF_step st t st1 hstep wf)

/-- C1: in the document returned by the segmenter, every placeholder obeys
the consume-sequencing invariant: each content token after the first has
`consume = shared` and so does its immediate predecessor; consequently a
`monopoly` token (an image or a table) is always the sole entry of its
placeholder. -/
theorem consumeSequencingInvariant (tokens : List Tok) (doc : List Slide)
    (h : processJson tokens = some doc) :
    ∀ s ∈ doc, ∀ p ∈ s.placeholders,
      (∀ i a b, p[i]? = some a → p[i + 1]? = some b →
        b.consume = Consume.shared ∧ a.consume = Consume.shared) ∧
      (∀ c ∈ p, c.consume = Consume.monopoly → p = [c]) := by
  unfold processJson at h
  cases hr : runSegmenter tokens with
  | none =>
    rw [hr] at h
    exact Option.noConfusion h
  | some stF =>
    rw [hr] at h
    injection h with h
    have hallF : ∀ s ∈ stF.slides, ∀ p ∈ s.placeholders, phOK p := by
      unfold runSegmenter at hr
      split at hr
      case h_1 => exact Option.noConfusion hr
      case h_2 st1 hrun =>
        have wf1 := runTokens_wf tokens initState st1 hrun segWF_init
        exact finalize_allOK st1 stF true hr wf1.allOK
    intro s hsmem p hp
    have hsF : s ∈ stF.slides := by
      rw [← h] at hsmem
      unfold pruneSlides at hsmem
      exact pruneGo_subset _ _ _ s hsmem
    exact phOK_spec p (hallF s hsF p hp)

/-- C1 witness: on the stream heading, image paragraph, text paragraph, the
returned document's image placeholder is exactly the singleton of its
monopoly image token, by the invariant applied at that placeholder. -/
theorem consumeSequencingInvariant_witness :
    ([⟨CVal.image "a.png" (some "pic"), Consume.monopoly⟩] : List CTok)
      = [⟨CVal.image "a.png" (some "pic"), Consume.monopoly⟩] :=
  (consumeSequencingInvariant
      [h1Tok "A", imgParaTok "a.png" "pic", paraTok "text"]
      [{ title := some [⟨false, false, false, none, "A"⟩],
         layout := "content_with_caption",
         placeholders := [[⟨CVal.image "a.png" (some "pic"), Consume.monopoly⟩],
           [⟨CVal.paragraph [⟨false, false, false, none, "text"⟩], Consume.shared⟩]],
         notes := [] }]
      rfl
      { title := some [⟨false, false, false, none, "A"⟩],
        layout := "content_with_caption",
        placeholders := [[⟨CVal.image "a.png" (some "pic"), Consume.monopoly⟩],
          [⟨CVal.paragraph [⟨false, false, false, none, "text"⟩], Consume.shared⟩]],
        notes := [] }
      (by simp)
      [⟨CVal.image "a.png" (some "pic"), Consume.monopoly⟩]
      (by simp)).2
    ⟨CVal.image "a.png" (some "pic"), Consume.monopoly⟩ (by simp) rfl

end Md2ppt
